import Mathlib

/-!
Verification of the assignment-aggregation pipeline of
`lessAIcodeGUIbetter.py` (Canvas assignment tracker).

The program's core is shallowly embedded here:
* `get_all_pages`   — the paginated fetch loop (lines 34-46), with the HTTP
  transport abstracted as a function from URLs to optional responses and a
  fuel argument standing in for the unbounded `while` loop;
* `parse_due_date`  — `datetime.fromisoformat(due_str.replace("Z", "+00:00"))`
  (lines 48-50), with `fromisoformat` modelled on CPython's documented
  grammar `YYYY-MM-DD[*HH[:MM[:SS[.fff[fff]]]][(+|-)HH:MM[:SS]]]` where `*`
  is any single separator character;
* `fetch_assignments_thread` — the pipeline (lines 79-197): identity
  resolution, course enumeration, per-course fetches with progress ticks,
  the upcoming / no-due classification, the stable sort by due instant, and
  the weekday grouping with remaining-time deltas.

Timestamps are microseconds since the Unix epoch (`Int`); a Python
`datetime` is a naive reading plus an optional UTC offset.  Failures that
the Python code reports by raising are modelled with `Option`.
-/

set_option maxRecDepth 8000

/-- Decimal value of a digit character. -/
def digitVal (c : Char) : Nat := c.toNat - 48

/-- Read exactly two digit characters as a two-digit number. -/
def take2 : List Char → Option (Nat × List Char)
  | a :: b :: rest =>
    if a.isDigit && b.isDigit then some (10 * digitVal a + digitVal b, rest) else none
  | _ => none

/-- Read exactly four digit characters as a four-digit number. -/
def take4 (l : List Char) : Option (Nat × List Char) := do
  let (hi, r1) ← take2 l
  let (lo, r2) ← take2 r1
  pure (100 * hi + lo, r2)

/-- Consume one expected character. -/
def expectChar (c : Char) : List Char → Option (List Char)
  | a :: rest => if a = c then some rest else none
  | [] => none

/-- Value of a digit string, most significant digit first. -/
def natOfDigits (l : List Char) : Nat := l.foldl (fun acc c => 10 * acc + digitVal c) 0

/-- Gregorian leap-year test, as in Python's `calendar.isleap`. -/
def isLeapYear (y : Nat) : Bool := y % 4 = 0 && (y % 100 != 0 || y % 400 = 0)

/-- Number of days in a month of the proleptic Gregorian calendar. -/
def daysInMonth (y m : Nat) : Nat :=
  if m = 2 then (if isLeapYear y then 29 else 28)
  else if m = 4 ∨ m = 6 ∨ m = 9 ∨ m = 11 then 30
  else 31

/-- Days from the Unix epoch to the civil date `y-m-d` (Gregorian). -/
def daysFromCivil (y m d : Nat) : Int :=
  let yi : Int := if m ≤ 2 then (y : Int) - 1 else (y : Int)
  let era : Int := yi.fdiv 400
  let yoe : Int := yi - era * 400
  let mp : Int := if 2 < m then (m : Int) - 3 else (m : Int) + 9
  let doy : Int := (153 * mp + 2).fdiv 5 + (d : Int) - 1
  let doe : Int := yoe * 365 + yoe.fdiv 4 - yoe.fdiv 100 + doy
  era * 146097 + doe - 719468

/-- Fractional-second field: exactly three or six digits, scaled to
microseconds (the CPython pre-3.11 `fromisoformat` rule). -/
def parseFrac (l : List Char) : Option (Nat × List Char) :=
  let digs := l.takeWhile Char.isDigit
  let rest := l.dropWhile Char.isDigit
  if digs.length = 3 then some (1000 * natOfDigits digs, rest)
  else if digs.length = 6 then some (natOfDigits digs, rest)
  else none

/-- Time-of-day portion `HH[:MM[:SS[.ffffff]]]`, in microseconds. -/
def parseTime (l : List Char) : Option (Nat × List Char) := do
  let (h, r1) ← take2 l
  if 24 ≤ h then none else
  match r1 with
  | ':' :: r2 => do
    let (mi, r3) ← take2 r2
    if 60 ≤ mi then none else
    match r3 with
    | ':' :: r4 => do
      let (s, r5) ← take2 r4
      if 60 ≤ s then none else
      match r5 with
      | '.' :: r6 => do
        let (us, r7) ← parseFrac r6
        pure ((h * 3600 + mi * 60 + s) * 1000000 + us, r7)
      | _ => pure ((h * 3600 + mi * 60 + s) * 1000000, r5)
    | _ => pure ((h * 3600 + mi * 60) * 1000000, r3)
  | _ => pure (h * 3600 * 1000000, r1)

/-- UTC-offset portion `(+|-)HH:MM[:SS]`, in microseconds. -/
def parseOffset (l : List Char) : Option (Int × List Char) := do
  let (sgn, r1) ← (match l with
    | '+' :: r => some ((1 : Int), r)
    | '-' :: r => some ((-1 : Int), r)
    | _ => none)
  let (oh, r2) ← take2 r1
  if 24 ≤ oh then none else
  let r3 ← expectChar ':' r2
  let (om, r4) ← take2 r3
  if 60 ≤ om then none else
  match r4 with
  | ':' :: r5 => do
    let (os, r6) ← take2 r5
    if 60 ≤ os then none else
    pure (sgn * ((oh * 3600 + om * 60 + os : Nat) : Int) * 1000000, r6)
  | _ => pure (sgn * ((oh * 3600 + om * 60 : Nat) : Int) * 1000000, r4)

/-- Python `datetime` value: naive clock reading in microseconds since the
epoch, plus the UTC offset (in microseconds) when the value is aware. -/
structure PyDateTime where
  naive : Int
  offset : Option Int
deriving DecidableEq

/-- Model of `datetime.fromisoformat`: the date `YYYY-MM-DD`, optionally
followed by any single separator character, a time of day, and an optional
UTC offset; field ranges are validated as the `datetime` constructor does. -/
def fromisoformat (l : List Char) : Option PyDateTime := do
  let (y, r1) ← take4 l
  let r2 ← expectChar '-' r1
  let (m, r3) ← take2 r2
  let r4 ← expectChar '-' r3
  let (d, r5) ← take2 r4
  if y = 0 then none else
  if m = 0 ∨ 12 < m then none else
  if d = 0 ∨ daysInMonth y m < d then none else
  let base : Int := daysFromCivil y m d * 86400000000
  match r5 with
  | [] => pure ⟨base, none⟩
  | _ :: r6 => do
    let (tod, r7) ← parseTime r6
    let naive := base + (tod : Int)
    match r7 with
    | [] => pure ⟨naive, none⟩
    | _ => do
      let (off, r8) ← parseOffset r7
      if r8.isEmpty then pure ⟨naive, some off⟩ else none

/-- Python's `s.replace("Z", "+00:00")`: every occurrence of `Z` is
rewritten, not only a trailing one. -/
def pyReplaceZ (l : List Char) : List Char :=
  l.flatMap fun c => if c = 'Z' then ['+', '0', '0', ':', '0', '0'] else [c]

/-- Embedding of `parse_due_date` (line 48-50 of the source):
`datetime.fromisoformat(due_str.replace("Z", "+00:00"))`. -/
def parse_due_date (l : List Char) : Option PyDateTime :=
  fromisoformat (pyReplaceZ l)

/-- Absolute UTC instant of an aware datetime; `none` for a naive one. -/
def utcVal (d : PyDateTime) : Option Int := d.offset.map (fun o => d.naive - o)

/-- Python's ordering test `a >= b` on datetimes: aware values compare by
UTC instant, naive values by the naive reading, and comparing a naive with
an aware value raises `TypeError` (modelled as `none`). -/
def cmpGE (a b : PyDateTime) : Option Bool :=
  match a.offset, b.offset with
  | some oa, some ob => some (decide (b.naive - ob ≤ a.naive - oa))
  | none, none => some (decide (b.naive ≤ a.naive))
  | _, _ => none

/-! ### Paginated fetcher (`get_all_pages`, source lines 34-46) -/

/-- One decoded HTTP response: the JSON body (a page of records) and the
`next` pagination link when the response carries one. -/
structure PageResponse (Url : Type) (α : Type) where
  body : List α
  next : Option Url
deriving DecidableEq

/-- Embedding of `get_all_pages`.  The transport is a function from URLs to
optional responses (`none` models a request whose `raise_for_status` fails);
`fuel` bounds the unbounded `while url:` loop (every theorem supplies enough
fuel for its page chain).  The result records, in order, each request issued
together with the query parameters sent on it, and the accumulated records
when the loop terminated successfully. -/
def get_all_pages {Url α Params : Type} (server : Url → Option (PageResponse Url α)) :
    Nat → Option Url → Option Params → List (Url × Option Params) × Option (List α)
  | _, none, _ => ([], some [])
  | 0, some _, _ => ([], none)
  | fuel + 1, some url, params =>
    match server url with
    | none => ([(url, params)], none)
    | some resp =>
      let r := get_all_pages server fuel resp.next none
      ((url, params) :: r.1, r.2.map (resp.body ++ ·))

/-- A linear chain of pages: URL `i` serves page `i` of `pages`, and links
to URL `i+1` exactly when a further page exists. -/
def chainServer {α : Type} (pages : List (List α)) : Nat → Option (PageResponse Nat α) :=
  fun i =>
    if h : i < pages.length then
      some ⟨pages.get ⟨i, h⟩, if i + 1 < pages.length then some (i + 1) else none⟩
    else none

/-- The request log `get_all_pages` is expected to produce on an `n`-page
chain: every page requested exactly once, in order, with the caller's query
parameters sent only on the first request. -/
def chainRequestLog {Params : Type} (qp : Params) (n : Nat) : List (Nat × Option Params) :=
  (List.range' 0 n).map fun j => (j, if j = 0 then some qp else none)

/-- Replacement of only a trailing `Z` zone marker by `+00:00` — the
substitution as the specification words it (the code instead replaces every
occurrence of `Z`). -/
def substTrailingZ (l : List Char) : List Char :=
  if l.getLast? = some 'Z' then l.dropLast ++ ['+', '0', '0', ':', '0', '0'] else l

/-- Modelled from the spec: an ISO-8601 timestamp in the extended format,
with the `T` date-time separator required — `YYYY-MM-DDTHH[:MM[:SS[.fff
[fff]]]]`, optionally followed by `Z` or a `(+|-)HH:MM[:SS]` zone
designator.  This is the specification's notion of "ISO-8601-compatible"
against which claim C7 measures `parse_due_date`. -/
def isoCompatibleSpec (l : List Char) : Bool :=
  (do
    let (y, r1) ← take4 l
    let r2 ← expectChar '-' r1
    let (m, r3) ← take2 r2
    let r4 ← expectChar '-' r3
    let (d, r5) ← take2 r4
    if y = 0 ∨ m = 0 ∨ 12 < m ∨ d = 0 ∨ daysInMonth y m < d then none else
    match r5 with
    | [] => some ()
    | _ => do
      let r6 ← expectChar 'T' r5
      let (_, r7) ← parseTime r6
      match r7 with
      | [] => some ()
      | ['Z'] => some ()
      | _ => do
        let (_, r8) ← parseOffset r7
        if r8.isEmpty then some () else none : Option Unit).isSome

/-! ### Aggregation pipeline (`fetch_assignments_thread`, source lines 79-197) -/

/-- An enrollment record: `course["id"]` is always read, `course.get("name",
"Unnamed Course")` tolerates a missing display name. -/
structure Course where
  id : Nat
  name : Option (List Char)
deriving DecidableEq

/-- A raw assignment as returned by the remote system: `a["name"]` and the
optional `a.get("due_at")`. -/
structure Asgn where
  name : List Char
  due_at : Option (List Char)
deriving DecidableEq

/-- A merged record (source lines 125-129): course name, assignment name,
optional due string. -/
structure Tagged where
  course_name : List Char
  assignment_name : List Char
  due_at : Option (List Char)
deriving DecidableEq

/-- Fallback display name used when an enrollment has none (line 120). -/
def unnamedCourse : List Char := "Unnamed Course".toList

/-- Tag one raw assignment with its course's display name (lines 124-129). -/
def tagAsgn (c : Course) (a : Asgn) : Tagged :=
  ⟨c.name.getD unnamedCourse, a.name, a.due_at⟩

/-- The per-enrollment loop (lines 118-135): fetch the course's assignments
(abbreviated to an optional result of the whole `get_all_pages` call), tag
and append them, then report progress `idx` (the `progress_bar["value"] =
idx` update).  Returns the progress values reported — also when a later
fetch fails — and the merge buffer on success. -/
def compile_go (f : Course → Option (List Asgn)) (idx : Nat) :
    List Course → List Nat × Option (List Tagged)
  | [] => ([], some [])
  | c :: rest =>
    match f c with
    | none => ([], none)
    | some asgns =>
      let r := compile_go f (idx + 1) rest
      (idx :: r.1, r.2.map (asgns.map (tagAsgn c) ++ ·))

/-- The due-date test of the `upcoming_assignments` comprehension (lines
144-147): `a["due_at"] is not None and parse_due_date(a["due_at"]) >= now`.
`none` models the comprehension raising (unparseable string, or a naive
datetime compared against the aware `now`). -/
def upcomingTest (now : PyDateTime) (a : Tagged) : Option Bool :=
  match a.due_at with
  | none => some false
  | some s =>
    match parse_due_date s with
    | none => none
    | some d => cmpGE d now

/-- A Python filtering comprehension whose predicate may raise: a raising
element aborts the whole comprehension. -/
def filterE {α : Type} (p : α → Option Bool) : List α → Option (List α)
  | [] => some []
  | a :: l =>
    match p a with
    | none => none
    | some b =>
      match filterE p l with
      | none => none
      | some r => some (if b then a :: r else r)

/-- Classification (lines 144-148): build the upcoming set, then the no-due
set.  A parse failure inside the first comprehension aborts the run. -/
def classify (now : PyDateTime) (l : List Tagged) :
    Option (List Tagged × List Tagged) :=
  match filterE (upcomingTest now) l with
  | none => none
  | some up => some (up, l.filter (fun a => a.due_at.isNone))

/-- Test for a record the classification drops: present, parseable,
comparable due instant strictly before `now`. -/
def pastTest (now : PyDateTime) (a : Tagged) : Bool :=
  match a.due_at with
  | none => false
  | some s =>
    match parse_due_date s with
    | none => false
    | some d =>
      match cmpGE d now with
      | some b => !b
      | none => false

/-- Boolean form of the upcoming test succeeding affirmatively. -/
def upcomingHolds (now : PyDateTime) (a : Tagged) : Bool :=
  decide (upcomingTest now a = some true)

/-- The records the classification drops.  The code never materialises this
set; it is the complement of the two computed ones. -/
def discarded_past (now : PyDateTime) (l : List Tagged) : List Tagged :=
  l.filter (pastTest now)

/-- Sort key of line 149: the parsed due datetime as a UTC instant (every
record reaching the sort is aware, having passed the `>= now` comparison). -/
def dueKey (a : Tagged) : Option Int := (a.due_at.bind parse_due_date).bind utcVal

/-- Total version of the sort key used inside the comparator. -/
def dueKeyD (a : Tagged) : Int := (dueKey a).getD 0

/-- Embedding of `upcoming_assignments.sort(key=lambda x:
parse_due_date(x["due_at"]))` (line 149): Python's stable sort, modelled by
insertion sort on the due-instant key; `none` when some key is unparseable
or naive, where the Python comparison would raise. -/
def sort_upcoming (l : List Tagged) : Option (List Tagged) :=
  if l.all (fun a => (dueKey a).isSome) then
    some (List.insertionSort (fun a b => dueKeyD a ≤ dueKeyD b) l)
  else none

/-! ### Weekday grouping (source lines 154-168) -/

/-- One rendered assignment line: the fields interpolated into the label
string of lines 165-167. -/
structure Entry where
  course_name : List Char
  assignment_name : List Char
  due_local : Int
  days_remaining : Int
  hours_remaining : Int
deriving DecidableEq

/-- The seven tab names, Monday first (line 267). -/
def day_tabs : List (List Char) :=
  ["Monday".toList, "Tuesday".toList, "Wednesday".toList, "Thursday".toList,
   "Friday".toList, "Saturday".toList, "Sunday".toList]

/-- English weekday name (`strftime("%A")`) of an epoch-day number; epoch
day 0, 1970-01-01, was a Thursday. -/
def weekdayName (days : Int) : List Char :=
  day_tabs.getD ((days + 3).emod 7).toNat []

/-- The body of the grouping loop for one upcoming record (lines 156-168):
re-parse the due string, convert to the local zone (`off` is the zone's
offset in microseconds; `sysOff` the system zone used by `astimezone` on a
naive value), take the weekday name, and compute the remaining delta
against a freshly sampled `now` (`nowU`, an absolute instant), splitting it
into Python `timedelta` days and a clamped hour count. -/
def mkEntry (off sysOff nowU : Int) (r : Tagged) : Option (List Char × Entry) :=
  match r.due_at with
  | none => none
  | some s =>
    match parse_due_date s with
    | none => none
    | some d =>
      let dueUtc := d.naive - (d.offset.getD sysOff)
      let dueLocal := dueUtc + off
      let delta := dueUtc - nowU
      let days := delta.fdiv 86400000000
      let hours := max 0 (delta.emod 86400000000 / 1000000 / 3600)
      some (weekdayName (dueLocal.fdiv 86400000000),
        ⟨r.course_name, r.assignment_name, dueLocal, days, hours⟩)

/-- The grouping loop: one entry per upcoming record, in order, labelled
with its weekday bucket.  `nows` gives the per-record re-sampled
`datetime.now(local_tz)` instant (the code samples it anew on line 160 for
each record). -/
def group_go (off sysOff : Int) (nows : Nat → Int) (i : Nat) :
    List Tagged → Option (List (List Char × Entry))
  | [] => some []
  | r :: rest =>
    match mkEntry off sysOff (nows i) r with
    | none => none
    | some e =>
      match group_go off sysOff nows (i + 1) rest with
      | none => none
      | some es => some (e :: es)

/-- Weekday grouping of the sorted upcoming list. -/
def group_upcoming (off sysOff : Int) (nows : Nat → Int) (l : List Tagged) :
    Option (List (List Char × Entry)) :=
  group_go off sysOff nows 0 l

/-- Contents of one weekday bucket, in append order. -/
def bucketOf (g : List (List Char × Entry)) (day : List Char) : List Entry :=
  (g.filter (fun p => p.1 = day)).map (·.2)

/-! ### The whole run -/

/-- How a run can terminate abnormally: identity resolution failed (the
`user_resp.raise_for_status()` of line 100), a later fetch failed (a
`raise_for_status` inside `get_all_pages`), or a due-date parse /
comparison raised during classification. -/
inductive RunError
  | authError
  | transportError
  | valueErrorAbort
deriving DecidableEq

/-- The identity record returned by `/users/self`. -/
structure User where
  id : Nat
  name : Option (List Char)
deriving DecidableEq

/-- The grouped result handed to the presentation layer: the weekday
entries (in insertion order, carrying their bucket name) and the no-due
bucket in merge order (lines 170-187). -/
structure GroupedOut where
  buckets : List (List Char × Entry)
  noDue : List Tagged
deriving DecidableEq

/-- Embedding of `fetch_assignments_thread` (lines 79-197).  The three
network dependencies are abstracted: `identity` is the `/users/self`
response, `coursesResp` the result of the course enumeration, `assignResp`
the per-course `get_all_pages` call.  `now` is the instant captured once on
line 137; `nows` the per-record re-sampled instants of line 160.  The first
component is the list of progress values reported; the second the outcome. -/
def run_pipeline (identity : Option User) (coursesResp : Option (List Course))
    (assignResp : Course → Option (List Asgn)) (now : PyDateTime)
    (off sysOff : Int) (nows : Nat → Int) :
    List Nat × Except RunError GroupedOut :=
  match identity with
  | none => ([], .error .authError)
  | some _ =>
    match coursesResp with
    | none => ([], .error .transportError)
    | some courses =>
      let r := compile_go assignResp 1 courses
      match r.2 with
      | none => (r.1, .error .transportError)
      | some merged =>
        match classify now merged with
        | none => (r.1, .error .valueErrorAbort)
        | some (up, nodue) =>
          match sort_upcoming up with
          | none => (r.1, .error .valueErrorAbort)
          | some sorted =>
            match group_upcoming off sysOff nows sorted with
            | none => (r.1, .error .valueErrorAbort)
            | some entries => (r.1, .ok ⟨entries, nodue⟩)

/-! ## Lemmas about the paginated fetcher -/

theorem get_all_pages_on_none {Url α Params : Type}
    (server : Url → Option (PageResponse Url α)) (fuel : Nat) (params : Option Params) :
    get_all_pages server fuel none params = ([], some []) := by
  cases fuel <;> rfl

theorem get_all_pages_chain_aux {α Params : Type} (pages : List (List α)) :
    ∀ (fuel i : Nat) (qp : Option Params), i < pages.length → pages.length - i ≤ fuel →
      get_all_pages (chainServer pages) fuel (some i) qp =
        ((i, qp) ::
            (List.range' (i + 1) (pages.length - (i + 1))).map
              (fun j => (j, (none : Option Params))),
          some (pages.drop i).flatten) := by
  intro fuel
  induction fuel with
  | zero => intro i qp hi hf; omega
  | succ fuel ih =>
    intro i qp hi hf
    have hdrop := List.drop_eq_getElem_cons hi
    have hstep : get_all_pages (chainServer pages) (fuel + 1) (some i) qp =
        ((i, qp) :: (get_all_pages (chainServer pages) fuel
            (if i + 1 < pages.length then some (i + 1) else none)
            (none : Option Params)).1,
          ((get_all_pages (chainServer pages) fuel
            (if i + 1 < pages.length then some (i + 1) else none)
            (none : Option Params)).2).map
            (pages.get ⟨i, hi⟩ ++ ·)) := by
      simp [get_all_pages, chainServer, hi]
    by_cases hnext : i + 1 < pages.length
    · have hlen : pages.length - (i + 1) = (pages.length - (i + 2)) + 1 := by omega
      rw [hstep, if_pos hnext, ih (i + 1) none hnext (by omega), hlen, List.range'_succ,
        List.map_cons]
      congr 1
      rw [hdrop, List.flatten_cons]
      rfl
    · have hzero : pages.length - (i + 1) = 0 := by omega
      have hdropnil : List.drop (i + 1) pages = [] := List.drop_eq_nil_of_le (by omega)
      rw [hstep, if_neg hnext, get_all_pages_on_none, hzero, hdrop, hdropnil]
      rfl

/-- C3: fetching a linear chain of pages that ends in a page with no next
link returns the flat concatenation of all page bodies, in page-arrival
order then in-page order; the caller's query parameters are sent only on
the first request, and exactly one request is issued per page. -/
theorem get_all_pages_paginates {α Params : Type} (pages : List (List α)) (qp : Params)
    (fuel : Nat) (hne : pages ≠ []) (hf : pages.length ≤ fuel) :
    get_all_pages (chainServer pages) fuel (some 0) (some qp) =
      (chainRequestLog qp pages.length, some pages.flatten) ∧
      (chainRequestLog qp pages.length).length = pages.length := by
  have hpos : 0 < pages.length := List.length_pos.mpr hne
  have h := get_all_pages_chain_aux pages fuel 0 (some qp) hpos (by omega)
  have hlog : ∀ n : Nat, 0 < n → chainRequestLog qp n =
      (0, some qp) :: (List.range' 1 (n - 1)).map (fun j => (j, (none : Option Params))) := by
    intro n hn
    rcases n with _ | m
    · omega
    · unfold chainRequestLog
      rw [List.range'_succ, List.map_cons]
      simp only [Nat.add_sub_cancel, Nat.zero_add, if_pos rfl, ite_true]
      have hmem : ∀ a ∈ List.range' 1 m,
          ((a, if a = 0 then some qp else none) : Nat × Option Params) = (a, none) := by
        intro a ha
        rcases List.mem_range'.mp ha with ⟨k, hk, hak⟩
        have hne0 : a ≠ 0 := by omega
        simp [hne0]
      rw [List.map_congr_left hmem]
  refine ⟨?_, ?_⟩
  · rw [h, hlog pages.length hpos]
    rfl
  · unfold chainRequestLog
    rw [List.length_map, List.length_range']

/-- Witness for C3 at the specification's example: a 3-page chain with page
sizes 2, 2, 1 yields the five records in order from exactly three requests,
with query parameters sent only on the first. -/
theorem get_all_pages_paginates_witness :
    get_all_pages (chainServer [[10, 11], [20, 21], [30]]) 3 (some 0) (some 99) =
      (chainRequestLog 99 3, some ([[10, 11], [20, 21], [30]] : List (List Nat)).flatten) ∧
      (chainRequestLog (99 : Nat) 3).length = 3 :=
  get_all_pages_paginates [[10, 11], [20, 21], [30]] 99 3 (by decide) (by decide)

/-! ## Lemmas about due-date parsing -/

theorem pyReplaceZ_no_z : ∀ {l : List Char}, 'Z' ∉ l → pyReplaceZ l = l := by
  intro l
  induction l with
  | nil => intro _; rfl
  | cons a l ih =>
    intro h
    have ha : ¬(a = 'Z') := fun e => h (e ▸ List.mem_cons_self a l)
    have hl : 'Z' ∉ l := fun m => h (List.mem_cons_of_mem a m)
    simp only [pyReplaceZ, List.flatMap_cons, if_neg ha]
    simp only [pyReplaceZ] at ih
    rw [ih hl]
    rfl

theorem pyReplaceZ_append (l₁ l₂ : List Char) :
    pyReplaceZ (l₁ ++ l₂) = pyReplaceZ l₁ ++ pyReplaceZ l₂ := by
  simp [pyReplaceZ, List.flatMap_append]

/-- On strings whose only `Z` (if any) is the final character, the code's
replace-all substitution coincides with the specification's trailing-only
substitution. -/
theorem pyReplaceZ_eq_substTrailingZ : ∀ {l : List Char}, 'Z' ∉ l.dropLast →
    pyReplaceZ l = substTrailingZ l := by
  intro l h
  rcases hgl : l.getLast? with _ | c
  · have : l = [] := List.getLast?_eq_none_iff.mp hgl
    subst this
    rfl
  · have hne : l ≠ [] := by
      intro e; subst e; simp at hgl
    have hsplit : l.dropLast ++ [l.getLast hne] = l := List.dropLast_append_getLast hne
    have hc : l.getLast hne = c := by
      have := List.getLast?_eq_getLast l hne
      rw [hgl] at this
      exact (Option.some.injEq _ _ ▸ this.symm :)
    by_cases hz : c = 'Z'
    · subst hz
      unfold substTrailingZ
      rw [if_pos hgl]
      conv_lhs => rw [← hsplit, hc]
      rw [pyReplaceZ_append, pyReplaceZ_no_z h]
      rfl
    · have hznotl : 'Z' ∉ l := by
        intro hm
        rw [← hsplit] at hm
        rcases List.mem_append.mp hm with hm | hm
        · exact h hm
        · rcases List.mem_singleton.mp hm with e
          exact hz (by rw [← hc, e])
      unfold substTrailingZ
      rw [if_neg (by rw [hgl]; intro e; exact hz (Option.some.injEq _ _ ▸ e :))]
      exact pyReplaceZ_no_z hznotl

/-- Counterexample to C7 as stated: on the string `2024-03-07x23:59:00`,
which the trailing-`Z` substitution leaves unchanged and which is not
ISO-8601-compatible (the separator is `x`, not `T`), `parse_due_date`
nevertheless succeeds, because `datetime.fromisoformat` accepts any single
character as the date-time separator.  So "fails with ParseError exactly
when the substituted string is not ISO-8601-compatible" is false. -/
theorem parse_due_date_not_iso_iff :
    ¬ ((parse_due_date "2024-03-07x23:59:00".toList = none) ↔
        (isoCompatibleSpec (substTrailingZ "2024-03-07x23:59:00".toList) = false)) := by
  decide

/-- C7 (amended): `parse_due_date` substitutes every occurrence of `Z` (not
only a trailing one) and then applies `fromisoformat`, whose grammar allows
any single date-time separator character; on every string with no interior
`Z` this agrees with the specification's trailing-only substitution, so
there the parse fails exactly when the trailing-substituted string is
outside the accepted grammar. -/
theorem parse_due_date_trailing (s : List Char) (h : 'Z' ∉ s.dropLast) :
    parse_due_date s = fromisoformat (substTrailingZ s) ∧
      (parse_due_date s = none ↔ fromisoformat (substTrailingZ s) = none) := by
  have he : parse_due_date s = fromisoformat (substTrailingZ s) := by
    unfold parse_due_date
    rw [pyReplaceZ_eq_substTrailingZ h]
  exact ⟨he, by rw [he]⟩

/-- Witness for C7 (amended) at a Canvas-style timestamp with trailing `Z`. -/
theorem parse_due_date_trailing_witness :
    'Z' ∉ ("2024-03-07T23:59:00Z".toList).dropLast ∧
      (parse_due_date "2024-03-07T23:59:00Z".toList =
          fromisoformat (substTrailingZ "2024-03-07T23:59:00Z".toList) ∧
        (parse_due_date "2024-03-07T23:59:00Z".toList = none ↔
          fromisoformat (substTrailingZ "2024-03-07T23:59:00Z".toList) = none)) :=
  ⟨by decide, parse_due_date_trailing "2024-03-07T23:59:00Z".toList (by decide)⟩

/-! ## Lemmas about classification -/

theorem filterE_isSome_of_mem {α : Type} {p : α → Option Bool} :
    ∀ {l : List α} {r : List α}, filterE p l = some r → ∀ a ∈ l, (p a).isSome := by
  intro l
  induction l with
  | nil => intro r _ a ha; cases ha
  | cons x xs ih =>
    intro r h a ha
    cases hpx : p x with
    | none => simp [filterE, hpx] at h
    | some b =>
      cases hfx : filterE p xs with
      | none => simp [filterE, hpx, hfx] at h
      | some r' =>
        rcases List.mem_cons.mp ha with e | hmem
        · subst e; rw [hpx]; rfl
        · exact ih hfx a hmem

theorem filterE_eq_filter {α : Type} {p : α → Option Bool} :
    ∀ {l r : List α}, filterE p l = some r →
      r = l.filter (fun a => decide (p a = some true)) := by
  intro l
  induction l with
  | nil => intro r h; cases h; rfl
  | cons x xs ih =>
    intro r h
    cases hpx : p x with
    | none => simp [filterE, hpx] at h
    | some b =>
      cases hfx : filterE p xs with
      | none => simp [filterE, hpx, hfx] at h
      | some r' =>
        simp only [filterE, hpx, hfx, Option.some.injEq] at h
        subst h
        rw [List.filter_cons]
        cases b with
        | true => simp [hpx, ih hfx]
        | false => simp [hpx, ih hfx]

theorem filterE_none_of_mem {α : Type} {p : α → Option Bool} :
    ∀ {l : List α} {a : α}, a ∈ l → p a = none → filterE p l = none := by
  intro l
  induction l with
  | nil => intro a ha; cases ha
  | cons x xs ih =>
    intro a ha hpa
    rcases List.mem_cons.mp ha with e | hmem
    · subst e; simp [filterE, hpa]
    · rw [filterE]
      cases hpx : p x with
      | none => rfl
      | some b => rw [ih hmem hpa]

theorem classify_inv {now : PyDateTime} {l up nodue : List Tagged}
    (h : classify now l = some (up, nodue)) :
    filterE (upcomingTest now) l = some up ∧
      nodue = l.filter (fun a => a.due_at.isNone) := by
  unfold classify at h
  cases hf : filterE (upcomingTest now) l with
  | none => rw [hf] at h; cases h
  | some u =>
    rw [hf] at h
    simp only [Option.some.injEq, Prod.mk.injEq] at h
    exact ⟨by rw [h.1], h.2.symm⟩

theorem classify_trichotomy (now : PyDateTime) (a : Tagged)
    (hsome : (upcomingTest now a).isSome) :
    (upcomingHolds now a ∧ ¬ a.due_at.isNone ∧ ¬ pastTest now a) ∨
      (¬ upcomingHolds now a ∧ a.due_at.isNone ∧ ¬ pastTest now a) ∨
      (¬ upcomingHolds now a ∧ ¬ a.due_at.isNone ∧ pastTest now a) := by
  unfold upcomingHolds pastTest
  cases hdue : a.due_at with
  | none =>
    right; left
    simp [upcomingTest, hdue]
  | some s =>
    cases hp : parse_due_date s with
    | none =>
      simp [upcomingTest, hdue, hp] at hsome
    | some d =>
      cases hc : cmpGE d now with
      | none =>
        simp [upcomingTest, hdue, hp, hc] at hsome
      | some b =>
        cases b with
        | true =>
          left
          simp [upcomingTest, hdue, hp, hc]
        | false =>
          right; right
          simp [upcomingTest, hdue, hp, hc]

theorem three_filter_perm {α : Type} (p q r : α → Bool) :
    ∀ (l : List α),
      (∀ a ∈ l, (p a ∧ ¬ q a ∧ ¬ r a) ∨ (¬ p a ∧ q a ∧ ¬ r a) ∨ (¬ p a ∧ ¬ q a ∧ r a)) →
      (l.filter p ++ l.filter q ++ l.filter r).Perm l := by
  intro l
  induction l with
  | nil => intro _; simp
  | cons x xs ih =>
    intro h
    have hx := h x (List.mem_cons_self x xs)
    have hxs : ∀ a ∈ xs, (p a ∧ ¬ q a ∧ ¬ r a) ∨ (¬ p a ∧ q a ∧ ¬ r a) ∨
        (¬ p a ∧ ¬ q a ∧ r a) :=
      fun a ha => h a (List.mem_cons_of_mem x ha)
    rcases hx with ⟨h1, h2, h3⟩ | ⟨h1, h2, h3⟩ | ⟨h1, h2, h3⟩
    · have h2' : q x = false := by simpa using h2
      have h3' : r x = false := by simpa using h3
      simp [List.filter_cons, h1, h2', h3']
      simpa [List.append_assoc] using ih hxs
    · have h1' : p x = false := by simpa using h1
      have h3' : r x = false := by simpa using h3
      simp [List.filter_cons, h1', h2, h3']
      refine List.Perm.trans List.perm_middle ?_
      refine List.Perm.cons x ?_
      simpa [List.append_assoc] using ih hxs
    · have h1' : p x = false := by simpa using h1
      have h2' : q x = false := by simpa using h2
      simp [List.filter_cons, h1', h2', h3]
      rw [← List.append_assoc]
      refine List.Perm.trans List.perm_middle ?_
      refine List.Perm.cons x ?_
      simpa [List.append_assoc] using ih hxs

/-- C2: when classification succeeds, the upcoming, no-due and
discarded-past sets are the filters of the merged list by three mutually
exclusive, exhaustive tests — upcoming (parseable due instant at or after
`now`), no-due (absent due date), discarded (parseable due instant before
`now`) — so the three sets partition the merged input with no overlap and
no loss. -/
theorem classify_partitions (now : PyDateTime) (l up nodue : List Tagged)
    (h : classify now l = some (up, nodue)) :
    up = l.filter (upcomingHolds now) ∧
      nodue = l.filter (fun a => a.due_at.isNone) ∧
      (∀ a ∈ l,
        (upcomingHolds now a ∧ ¬ a.due_at.isNone ∧ ¬ pastTest now a) ∨
          (¬ upcomingHolds now a ∧ a.due_at.isNone ∧ ¬ pastTest now a) ∨
          (¬ upcomingHolds now a ∧ ¬ a.due_at.isNone ∧ pastTest now a)) ∧
      (up ++ nodue ++ discarded_past now l).Perm l := by
  obtain ⟨hf, hnd⟩ := classify_inv h
  have hup : up = l.filter (upcomingHolds now) := filterE_eq_filter hf
  have htri : ∀ a ∈ l,
      (upcomingHolds now a ∧ ¬ a.due_at.isNone ∧ ¬ pastTest now a) ∨
        (¬ upcomingHolds now a ∧ a.due_at.isNone ∧ ¬ pastTest now a) ∨
        (¬ upcomingHolds now a ∧ ¬ a.due_at.isNone ∧ pastTest now a) :=
    fun a ha => classify_trichotomy now a (filterE_isSome_of_mem hf a ha)
  refine ⟨hup, hnd, htri, ?_⟩
  rw [hup, hnd]
  exact three_filter_perm _ _ _ l htri

/-- Witness for C2 on a concrete merged list with one upcoming record, one
record without a due date, and one past record. -/
theorem classify_partitions_witness :
    (([⟨"Calc".toList, "HW1".toList, some "2024-03-07T23:59:00Z".toList⟩] ++
        [⟨"Calc".toList, "HW2".toList, none⟩] ++
        discarded_past ⟨19787 * 86400000000, some 0⟩
          [⟨"Calc".toList, "HW1".toList, some "2024-03-07T23:59:00Z".toList⟩,
           ⟨"Calc".toList, "HW2".toList, none⟩,
           ⟨"Calc".toList, "HW0".toList, some "2024-03-01T10:00:00Z".toList⟩]) :
      List Tagged).Perm
      [⟨"Calc".toList, "HW1".toList, some "2024-03-07T23:59:00Z".toList⟩,
       ⟨"Calc".toList, "HW2".toList, none⟩,
       ⟨"Calc".toList, "HW0".toList, some "2024-03-01T10:00:00Z".toList⟩] :=
  (classify_partitions ⟨19787 * 86400000000, some 0⟩
    [⟨"Calc".toList, "HW1".toList, some "2024-03-07T23:59:00Z".toList⟩,
     ⟨"Calc".toList, "HW2".toList, none⟩,
     ⟨"Calc".toList, "HW0".toList, some "2024-03-01T10:00:00Z".toList⟩]
    [⟨"Calc".toList, "HW1".toList, some "2024-03-07T23:59:00Z".toList⟩]
    [⟨"Calc".toList, "HW2".toList, none⟩] (by decide)).2.2.2

/-- Counterexample to C1: a merged record whose due-date string is present
but unparseable makes the run abort with an error instead of completing;
the record is never placed in the no-due bucket and no grouped result is
produced. -/
theorem run_aborts_on_unparseable_due :
    run_pipeline (some ⟨7, some "me".toList⟩) (some [⟨1, some "Calc".toList⟩])
      (fun _ => some [⟨"HW1".toList, some "not-a-date".toList⟩])
      ⟨0, some 0⟩ 0 0 (fun _ => 0) = ([1], .error .valueErrorAbort) := by
  rfl

/-- C1 (amended): a merged record whose due-date string is present but
unparseable makes the classification comprehension raise, so the whole
classification — and with it the run — fails instead of filing the record
under the no-due bucket; only absent due dates reach that bucket. -/
theorem classify_aborts_on_unparseable (now : PyDateTime) (l : List Tagged)
    (a : Tagged) (s : List Char) (ha : a ∈ l) (hs : a.due_at = some s)
    (hp : parse_due_date s = none) :
    classify now l = none := by
  have hu : upcomingTest now a = none := by simp [upcomingTest, hs, hp]
  unfold classify
  rw [filterE_none_of_mem ha hu]

/-- Witness for C1 (amended) on the spec's own malformed string. -/
theorem classify_aborts_on_unparseable_witness :
    classify ⟨0, some 0⟩ [⟨"Calc".toList, "HW1".toList, some "not-a-date".toList⟩] = none :=
  classify_aborts_on_unparseable ⟨0, some 0⟩ _ _ "not-a-date".toList
    (List.mem_singleton.mpr rfl) rfl (by decide)

/-- C5: classification compares every record against the single captured
`now` (the upcoming set is one filter parameterised by that one instant),
and the boundary is inclusive — a record whose due instant equals the
captured `now` exactly is classified upcoming and is not discarded. -/
theorem classify_inclusive_boundary (now : PyDateTime) (l up nodue : List Tagged)
    (a : Tagged) (s : List Char) (d : PyDateTime) (t : Int)
    (h : classify now l = some (up, nodue)) (ha : a ∈ l) (hs : a.due_at = some s)
    (hd : parse_due_date s = some d) (hdt : utcVal d = some t) (hnt : utcVal now = some t) :
    up = l.filter (upcomingHolds now) ∧ a ∈ up ∧ a ∉ discarded_past now l := by
  obtain ⟨hf, _⟩ := classify_inv h
  have hup : up = l.filter (upcomingHolds now) := filterE_eq_filter hf
  obtain ⟨od, hod, hodv⟩ : ∃ od, d.offset = some od ∧ d.naive - od = t := by
    unfold utcVal at hdt
    cases hdo : d.offset with
    | none => rw [hdo] at hdt; cases hdt
    | some od =>
      rw [hdo] at hdt
      simp at hdt
      exact ⟨od, rfl, hdt⟩
  obtain ⟨onw, hon, honv⟩ : ∃ onw, now.offset = some onw ∧ now.naive - onw = t := by
    unfold utcVal at hnt
    cases hno : now.offset with
    | none => rw [hno] at hnt; cases hnt
    | some onw =>
      rw [hno] at hnt
      simp at hnt
      exact ⟨onw, rfl, hnt⟩
  have hcmp : cmpGE d now = some true := by
    unfold cmpGE
    rw [hod, hon]
    simp [hodv, honv]
  have hut : upcomingTest now a = some true := by simp [upcomingTest, hs, hd, hcmp]
  refine ⟨hup, ?_, ?_⟩
  · rw [hup]
    exact List.mem_filter.mpr ⟨ha, by simp [upcomingHolds, hut]⟩
  · intro hmem
    have hpt := (List.mem_filter.mp hmem).2
    simp [pastTest, hs, hd, hcmp] at hpt

/-- Witness for C5: a record due exactly at the captured `now` lands in the
upcoming set and not in the discarded set. -/
theorem classify_inclusive_boundary_witness :
    ([⟨"Calc".toList, "HW1".toList, some "2024-03-07T23:59:00Z".toList⟩] :
        List Tagged) =
      ([⟨"Calc".toList, "HW1".toList, some "2024-03-07T23:59:00Z".toList⟩] :
        List Tagged).filter
        (upcomingHolds ⟨19789 * 86400000000 + 86340000000, some 0⟩) ∧
    (⟨"Calc".toList, "HW1".toList, some "2024-03-07T23:59:00Z".toList⟩ : Tagged) ∈
      ([⟨"Calc".toList, "HW1".toList, some "2024-03-07T23:59:00Z".toList⟩] : List Tagged) ∧
    (⟨"Calc".toList, "HW1".toList, some "2024-03-07T23:59:00Z".toList⟩ : Tagged) ∉
      discarded_past ⟨19789 * 86400000000 + 86340000000, some 0⟩
        [⟨"Calc".toList, "HW1".toList, some "2024-03-07T23:59:00Z".toList⟩] :=
  classify_inclusive_boundary ⟨19789 * 86400000000 + 86340000000, some 0⟩
    [⟨"Calc".toList, "HW1".toList, some "2024-03-07T23:59:00Z".toList⟩]
    [⟨"Calc".toList, "HW1".toList, some "2024-03-07T23:59:00Z".toList⟩] []
    ⟨"Calc".toList, "HW1".toList, some "2024-03-07T23:59:00Z".toList⟩
    "2024-03-07T23:59:00Z".toList
    ⟨19789 * 86400000000 + 86340000000, some 0⟩
    (19789 * 86400000000 + 86340000000)
    (by decide) (List.mem_singleton.mpr rfl) rfl (by decide) (by decide) (by decide)

/-! ## Lemmas about the per-enrollment loop and the whole run -/

theorem compile_go_calls {f : Course → Option (List Asgn)} :
    ∀ (cs : List Course) (idx : Nat), (compile_go f idx cs).2.isSome →
      (compile_go f idx cs).1 = List.range' idx cs.length := by
  intro cs
  induction cs with
  | nil => intro idx _; rfl
  | cons c rest ih =>
    intro idx h
    cases hfc : f c with
    | none => simp [compile_go, hfc] at h
    | some asgns =>
      simp only [compile_go, hfc] at h ⊢
      have h2 : (compile_go f (idx + 1) rest).2.isSome := by
        rcases hr : (compile_go f (idx + 1) rest).2 with _ | m
        · rw [hr] at h; simp at h
        · rfl
      rw [List.length_cons, List.range'_succ, ih (idx + 1) h2]

theorem compile_go_all {f : Course → Option (List Asgn)} :
    ∀ (cs : List Course) (idx : Nat), (∀ c ∈ cs, (f c).isSome) →
      compile_go f idx cs = (List.range' idx cs.length,
        some (cs.flatMap fun c => ((f c).getD []).map (tagAsgn c))) := by
  intro cs
  induction cs with
  | nil => intro idx _; rfl
  | cons c rest ih =>
    intro idx hall
    obtain ⟨asgns, hfc⟩ := Option.isSome_iff_exists.mp (hall c (List.mem_cons_self c rest))
    have hrest := ih (idx + 1) (fun x hx => hall x (List.mem_cons_of_mem c hx))
    simp [compile_go, hfc, hrest, List.range'_succ, List.flatMap_cons]

theorem compile_go_fail {f : Course → Option (List Asgn)} :
    ∀ (l1 : List Course) (c : Course) (l2 : List Course) (idx : Nat),
      (∀ x ∈ l1, (f x).isSome) → f c = none →
      compile_go f idx (l1 ++ c :: l2) = (List.range' idx l1.length, none) := by
  intro l1
  induction l1 with
  | nil => intro c l2 idx _ hc; simp [compile_go, hc]
  | cons x xs ih =>
    intro c l2 idx hall hc
    obtain ⟨asgns, hx⟩ := Option.isSome_iff_exists.mp (hall x (List.mem_cons_self x xs))
    have hrest := ih c l2 (idx + 1) (fun y hy => hall y (List.mem_cons_of_mem x hy)) hc
    simp [compile_go, hx, hrest, List.range'_succ]

/-- C4: on a successful run over `N` enrollments, the progress sink receives
exactly the values `1, 2, ..., N` in order — one call per enrollment,
increasing by exactly one per call — hence exactly `N` calls, and none at
all when there are no enrollments. -/
theorem run_progress (identity : Option User) (courses : List Course)
    (f : Course → Option (List Asgn)) (now : PyDateTime) (off sysOff : Int)
    (nows : Nat → Int) (calls : List Nat) (g : GroupedOut)
    (h : run_pipeline identity (some courses) f now off sysOff nows = (calls, .ok g)) :
    calls = List.range' 1 courses.length ∧ calls.length = courses.length := by
  cases identity with
  | none => exfalso; simp [run_pipeline] at h
  | some u =>
    rcases hr2 : (compile_go f 1 courses).2 with _ | merged
    · exfalso; simp [run_pipeline, hr2] at h
    · rcases hcls : classify now merged with _ | ⟨up, nodue⟩
      · exfalso; simp [run_pipeline, hr2, hcls] at h
      · rcases hst : sort_upcoming up with _ | sorted
        · exfalso; simp [run_pipeline, hr2, hcls, hst] at h
        · rcases hgp : group_upcoming off sysOff nows sorted with _ | entries
          · exfalso; simp [run_pipeline, hr2, hcls, hst, hgp] at h
          · simp only [run_pipeline, hr2, hcls, hst, hgp, Prod.mk.injEq,
              Except.ok.injEq] at h
            have hsome : (compile_go f 1 courses).2.isSome := by rw [hr2]; rfl
            have hcg := compile_go_calls courses 1 hsome
            constructor
            · rw [← h.1, hcg]
            · rw [← h.1, hcg, List.length_range']

/-- Witness for C4: a successful run over two enrollments — the second with
zero assignments — reports progress exactly twice, with values 1 then 2. -/
theorem run_progress_witness :
    ([1, 2] : List Nat) = List.range' 1 2 ∧ ([1, 2] : List Nat).length = 2 :=
  run_progress (some ⟨7, some "me".toList⟩)
    [⟨1, some "A".toList⟩, ⟨2, none⟩] (fun _ => some [])
    ⟨0, some 0⟩ 0 0 (fun _ => 0) [1, 2] ⟨[], []⟩ rfl

/-- C8: if identity resolution fails, the run halts with the auth error and
the progress sink is never called; if a later per-enrollment fetch fails,
the run halts there with the transport error, no grouped result is
produced, and the progress already reported for the earlier enrollments
stands; and inside the fetcher a request whose status check fails aborts
immediately after that single request, with no retry. -/
theorem run_halts_on_errors
    (cResp : Option (List Course)) (f : Course → Option (List Asgn))
    (now : PyDateTime) (off sysOff : Int) (nows : Nat → Int)
    (u : User) (l1 l2 : List Course) (c : Course)
    (hall : ∀ x ∈ l1, (f x).isSome) (hc : f c = none)
    {Url α Params : Type} (server : Url → Option (PageResponse Url α))
    (url : Url) (params : Option Params) (fuel : Nat) (hs : server url = none) :
    run_pipeline none cResp f now off sysOff nows = ([], .error .authError) ∧
      run_pipeline (some u) (some (l1 ++ c :: l2)) f now off sysOff nows =
        (List.range' 1 l1.length, .error .transportError) ∧
      get_all_pages server (fuel + 1) (some url) params = ([(url, params)], none) := by
  refine ⟨rfl, ?_, ?_⟩
  · simp [run_pipeline, compile_go_fail l1 c l2 1 hall hc]
  · simp [get_all_pages, hs]

/-- Witness for C8 with a concrete failing identity, a fetch that fails on
the second of two enrollments, and a server that refuses its only page. -/
theorem run_halts_on_errors_witness :
    run_pipeline none (some []) (fun c => if c.id = 1 then some [] else none)
        ⟨0, some 0⟩ 0 0 (fun _ => 0) = ([], .error .authError) ∧
      run_pipeline (some ⟨7, some "me".toList⟩)
        (some ([⟨1, some "A".toList⟩] ++ ⟨2, none⟩ :: []))
        (fun c => if c.id = 1 then some [] else none)
        ⟨0, some 0⟩ 0 0 (fun _ => 0) =
        (List.range' 1 [(⟨1, some "A".toList⟩ : Course)].length, .error .transportError) ∧
      get_all_pages (fun _ => (none : Option (PageResponse Nat Nat))) (0 + 1)
        (some 0) (some (5 : Nat)) = ([(0, some 5)], none) :=
  run_halts_on_errors (some []) (fun c => if c.id = 1 then some [] else none)
    ⟨0, some 0⟩ 0 0 (fun _ => 0) ⟨7, some "me".toList⟩
    [⟨1, some "A".toList⟩] [] ⟨2, none⟩ (by decide) (by decide)
    (fun _ => (none : Option (PageResponse Nat Nat))) 0 (some 5) 0 rfl

/-- C9: an enrollment whose record lacks a display name does not abort the
run — when every fetch succeeds the compilation step still succeeds, and
every assignment of that enrollment appears in the merge buffer tagged with
the fallback course name "Unnamed Course". -/
theorem compile_tags_unnamed (f : Course → Option (List Asgn))
    (l1 l2 : List Course) (c : Course) (hname : c.name = none)
    (hall : ∀ x ∈ l1 ++ c :: l2, (f x).isSome) :
    compile_go f 1 (l1 ++ c :: l2) =
      (List.range' 1 (l1 ++ c :: l2).length,
        some ((l1.flatMap fun x => ((f x).getD []).map (tagAsgn x)) ++
          ((f c).getD []).map (fun a => ⟨unnamedCourse, a.name, a.due_at⟩) ++
          (l2.flatMap fun x => ((f x).getD []).map (tagAsgn x)))) := by
  rw [compile_go_all (l1 ++ c :: l2) 1 hall]
  have htag : tagAsgn c = fun a => (⟨unnamedCourse, a.name, a.due_at⟩ : Tagged) := by
    funext a
    simp [tagAsgn, hname]
  simp [List.flatMap_append, List.flatMap_cons, htag, List.append_assoc]

/-- Witness for C9: a nameless enrollment's assignment is tagged with the
fallback name and the run's compile step succeeds. -/
theorem compile_tags_unnamed_witness :
    compile_go (fun _ => some [⟨"HW1".toList, none⟩]) 1 ([] ++ (⟨5, none⟩ : Course) :: []) =
      (List.range' 1 ([] ++ (⟨5, none⟩ : Course) :: []).length,
        some (([] : List Course).flatMap
            (fun x => (((fun (_ : Course) => some [(⟨"HW1".toList, none⟩ : Asgn)]) x).getD []).map
              (tagAsgn x)) ++
          (((fun (_ : Course) => some [(⟨"HW1".toList, none⟩ : Asgn)]) (⟨5, none⟩ : Course)).getD
              []).map (fun a => ⟨unnamedCourse, a.name, a.due_at⟩) ++
          ([] : List Course).flatMap
            (fun x => (((fun (_ : Course) => some [(⟨"HW1".toList, none⟩ : Asgn)]) x).getD []).map
              (tagAsgn x)))) :=
  compile_tags_unnamed (fun _ => some [⟨"HW1".toList, none⟩]) [] [] ⟨5, none⟩ rfl
    (by intro x _; rfl)

/-! ## Lemmas about the stable sort -/

theorem filter_key_orderedInsert (k : Int) (a : Tagged) :
    ∀ (l : List Tagged),
      (List.orderedInsert (fun x y => dueKeyD x ≤ dueKeyD y) a l).filter
          (fun x => decide (dueKeyD x = k)) =
        if dueKeyD a = k then
          a :: l.filter (fun x => decide (dueKeyD x = k))
        else l.filter (fun x => decide (dueKeyD x = k)) := by
  intro l
  induction l with
  | nil =>
    simp only [List.orderedInsert, List.filter_cons, List.filter_nil]
    split <;> simp_all
  | cons b l ih =>
    by_cases hab : dueKeyD a ≤ dueKeyD b
    · simp only [List.orderedInsert, if_pos hab, List.filter_cons]
      split <;> split <;> simp_all
    · have hba : dueKeyD b < dueKeyD a := lt_of_not_le hab
      simp only [List.orderedInsert, if_neg hab, List.filter_cons, ih]
      by_cases ha : dueKeyD a = k
      · have hb : ¬ (dueKeyD b = k) := by omega
        simp [ha, hb]
      · simp [ha]

theorem filter_key_insertionSort (k : Int) :
    ∀ (l : List Tagged),
      (List.insertionSort (fun x y => dueKeyD x ≤ dueKeyD y) l).filter
          (fun x => decide (dueKeyD x = k)) =
        l.filter (fun x => decide (dueKeyD x = k)) := by
  intro l
  induction l with
  | nil => rfl
  | cons a l ih =>
    simp only [List.insertionSort, filter_key_orderedInsert, ih, List.filter_cons]
    split <;> simp_all

/-- C6: a successful sort of the upcoming list is sorted ascending by the
due-instant key, is stable — the records carrying any fixed due instant
appear in exactly their original (merge) order — and sorting the sorted
list again returns it unchanged. -/
theorem sort_upcoming_spec (l l' : List Tagged) (h : sort_upcoming l = some l') :
    List.Sorted (fun a b => dueKeyD a ≤ dueKeyD b) l' ∧
      (∀ k : Int, l'.filter (fun a => decide (dueKeyD a = k)) =
        l.filter (fun a => decide (dueKeyD a = k))) ∧
      (∀ a ∈ l', (dueKey a).isSome) ∧
      sort_upcoming l' = some l' := by
  unfold sort_upcoming at h
  by_cases hall : l.all (fun a => (dueKey a).isSome)
  · rw [if_pos hall] at h
    have hl' : l' = List.insertionSort (fun a b => dueKeyD a ≤ dueKeyD b) l := by
      cases h; rfl
    haveI : IsTotal Tagged (fun a b => dueKeyD a ≤ dueKeyD b) :=
      ⟨fun a b => le_total _ _⟩
    haveI : IsTrans Tagged (fun a b => dueKeyD a ≤ dueKeyD b) :=
      ⟨fun _ _ _ hab hbc => le_trans hab hbc⟩
    have hsorted : List.Sorted (fun a b => dueKeyD a ≤ dueKeyD b) l' := by
      rw [hl']
      exact List.sorted_insertionSort _ l
    have hmem : ∀ a ∈ l', (dueKey a).isSome := by
      intro a ha
      have : a ∈ l := by
        rw [hl'] at ha
        exact (List.perm_insertionSort _ l).mem_iff.mp ha
      exact List.all_eq_true.mp hall a this
    refine ⟨hsorted, ?_, hmem, ?_⟩
    · intro k
      rw [hl']
      exact filter_key_insertionSort k l
    · unfold sort_upcoming
      rw [if_pos (List.all_eq_true.mpr hmem), hsorted.insertionSort_eq]
  · rw [if_neg hall] at h
    cases h

/-- Witness for C6 (the idempotence conjunct) on a list with two records
sharing one due instant: re-sorting the sorted list leaves it unchanged. -/
theorem sort_upcoming_spec_witness :
    sort_upcoming
        [⟨"B".toList, "HW0".toList, some "2024-03-01T10:00:00Z".toList⟩,
         ⟨"A".toList, "HW1".toList, some "2024-03-07T23:59:00Z".toList⟩,
         ⟨"A".toList, "HW2".toList, some "2024-03-07T23:59:00Z".toList⟩] =
      some
        [⟨"B".toList, "HW0".toList, some "2024-03-01T10:00:00Z".toList⟩,
         ⟨"A".toList, "HW1".toList, some "2024-03-07T23:59:00Z".toList⟩,
         ⟨"A".toList, "HW2".toList, some "2024-03-07T23:59:00Z".toList⟩] :=
  (sort_upcoming_spec
    [⟨"A".toList, "HW1".toList, some "2024-03-07T23:59:00Z".toList⟩,
     ⟨"A".toList, "HW2".toList, some "2024-03-07T23:59:00Z".toList⟩,
     ⟨"B".toList, "HW0".toList, some "2024-03-01T10:00:00Z".toList⟩]
    [⟨"B".toList, "HW0".toList, some "2024-03-01T10:00:00Z".toList⟩,
     ⟨"A".toList, "HW1".toList, some "2024-03-07T23:59:00Z".toList⟩,
     ⟨"A".toList, "HW2".toList, some "2024-03-07T23:59:00Z".toList⟩]
    (by decide)).2.2.2

/-! ## Lemmas about the weekday grouping -/

theorem group_go_mem {off sysOff : Int} {nows : Nat → Int} :
    ∀ {l : List Tagged} {i : Nat} {g : List (List Char × Entry)},
      group_go off sysOff nows i l = some g →
      ∀ p ∈ g, ∃ (j : Nat) (r : Tagged), mkEntry off sysOff (nows j) r = some p := by
  intro l
  induction l with
  | nil =>
    intro i g h p hp
    cases h
    cases hp
  | cons r rest ih =>
    intro i g h p hp
    cases hme : mkEntry off sysOff (nows i) r with
    | none => simp [group_go, hme] at h
    | some e =>
      cases hgr : group_go off sysOff nows (i + 1) rest with
      | none => simp [group_go, hme, hgr] at h
      | some es =>
        simp only [group_go, hme, hgr, Option.some.injEq] at h
        subst h
        rcases List.mem_cons.mp hp with e | hmem
        · subst e; exact ⟨i, r, hme⟩
        · exact ih hgr p hmem

theorem mkEntry_hours {off sysOff nowU : Int} {r : Tagged} {p : List Char × Entry}
    (h : mkEntry off sysOff nowU r = some p) :
    0 ≤ p.2.hours_remaining ∧ p.2.hours_remaining ≤ 23 := by
  unfold mkEntry at h
  cases hdue : r.due_at with
  | none => simp [hdue] at h
  | some s =>
    simp only [hdue] at h
    cases hp : parse_due_date s with
    | none => simp [hp] at h
    | some d =>
      simp only [hp, Option.some.injEq] at h
      subst h
      dsimp only
      constructor
      · exact le_max_left 0 _
      · set delta : Int := d.naive - (d.offset.getD sysOff) - nowU with hdel
        have h0 : (0 : Int) ≤ delta.emod 86400000000 :=
          Int.emod_nonneg _ (by norm_num)
        have h1 : delta.emod 86400000000 < 86400000000 :=
          Int.emod_lt_of_pos _ (by norm_num)
        have h2 : delta.emod 86400000000 / 1000000 ≤ 86399 := by
          have hle : delta.emod 86400000000 ≤ 86399999999 := by omega
          have := Int.ediv_le_ediv (by norm_num : (0 : Int) < 1000000) hle
          calc delta.emod 86400000000 / 1000000
              ≤ 86399999999 / 1000000 := this
            _ = 86399 := by norm_num
        have h3 : delta.emod 86400000000 / 1000000 / 3600 ≤ 23 := by
          have := Int.ediv_le_ediv (by norm_num : (0 : Int) < 3600) h2
          calc delta.emod 86400000000 / 1000000 / 3600
              ≤ 86399 / 3600 := this
            _ = 23 := by norm_num
        exact max_le (by norm_num) h3

/-- C10: every assignment placed in a weekday bucket carries an
hours-remaining value between 0 and 23 inclusive — the hour count of the
final partial day of the remaining delta, never negative, independently of
the (possibly negative) days-remaining value computed from the same
re-sampled delta. -/
theorem grouped_hours_bounded (off sysOff : Int) (nows : Nat → Int)
    (l : List Tagged) (g : List (List Char × Entry)) (day : List Char) (e : Entry)
    (h : group_upcoming off sysOff nows l = some g) (he : e ∈ bucketOf g day) :
    0 ≤ e.hours_remaining ∧ e.hours_remaining ≤ 23 := by
  obtain ⟨p, hpf, hpe⟩ := List.mem_map.mp he
  have hpg : p ∈ g := (List.mem_filter.mp hpf).1
  obtain ⟨j, r, hm⟩ := group_go_mem h p hpg
  have := mkEntry_hours hm
  rw [hpe] at this
  exact this

/-- Witness for C10: a record one hour past its due instant at sampling
time gets days-remaining = -1 and hours-remaining = 23, inside the bound. -/
theorem grouped_hours_bounded_witness :
    (0 : Int) ≤
        (⟨"Calc".toList, "HW1".toList, 1709855940000000, -1, 23⟩ : Entry).hours_remaining ∧
      (⟨"Calc".toList, "HW1".toList, 1709855940000000, -1, 23⟩ : Entry).hours_remaining ≤ 23 :=
  grouped_hours_bounded 0 0 (fun _ => 1709855940000000 + 3600000000)
    [⟨"Calc".toList, "HW1".toList, some "2024-03-07T23:59:00Z".toList⟩]
    [("Thursday".toList, ⟨"Calc".toList, "HW1".toList, 1709855940000000, -1, 23⟩)]
    "Thursday".toList
    ⟨"Calc".toList, "HW1".toList, 1709855940000000, -1, 23⟩
    (by decide) (by decide)
